import Mathlib

/-!
Verification of the portfolio valuation engine of `src/app.py`
(a multi-asset, multi-currency backtesting application).

The Python source is shallowly embedded: pandas frames become lists of
columns (`String × List _`), dates become a record with year/month/day
fields, floats become `ℚ`, and the `try/except`-driven control flow is
made explicit with `Option`/`Except`.
-/

namespace StockApp

/-! ## Dates

Only the `month` field is ever inspected by the engine (`d.month` in the
compounding loop at `app.py:120`); `year` and `day` are carried so that
claims about year-(in)dependence can be stated. -/

structure Date where
  year : Int
  month : Int
  day : Int
deriving DecidableEq, Repr

/-! ## Compounding simulator (`app.py:117-126`)

```python
val, cost, last_m = initial_cash, initial_cash, -1
v_hist, c_hist = [], []
for d, r in portfolio_ret.items():
    if d.month != last_m:
        val += monthly_invest
        cost += monthly_invest
        last_m = d.month
    val *= (1 + r)
    v_hist.append(val)
    c_hist.append(cost)
```
-/

structure SimState where
  val : ℚ
  cost : ℚ
  lastM : Int
deriving DecidableEq, Repr

/-- One iteration of the compounding loop body for `(d, r)`. -/
def simStep (monthly : ℚ) (s : SimState) (d : Date) (r : ℚ) : SimState :=
  let s1 : SimState :=
    if d.month ≠ s.lastM then ⟨s.val + monthly, s.cost + monthly, d.month⟩ else s
  ⟨s1.val * (1 + r), s1.cost, s1.lastM⟩

/-- The loop over `portfolio_ret.items()`, returning `(v_hist, c_hist)`. -/
def runSim (monthly : ℚ) (s : SimState) : List (Date × ℚ) → List ℚ × List ℚ
  | [] => ([], [])
  | (d, r) :: rest =>
      let s2 := simStep monthly s d r
      let tl := runSim monthly s2 rest
      (s2.val :: tl.1, s2.cost :: tl.2)

/-- The whole compounding block: initial state `(initial_cash, initial_cash, -1)`,
then the loop. -/
def compound (initialCash monthly : ℚ) (series : List (Date × ℚ)) : List ℚ × List ℚ :=
  runSim monthly ⟨initialCash, initialCash, -1⟩ series

/-- The dashboard read `v_f, c_f = v_hist[-1], c_hist[-1]` (`app.py:130`):
Python raises `IndexError` on an empty list, modelled as `none`. -/
def finalRead (hists : List ℚ × List ℚ) : Option (ℚ × ℚ) :=
  match hists.1.getLast?, hists.2.getLast? with
  | some vf, some cf => some (vf, cf)
  | _, _ => none

/-! ### Cost-sequence helpers

`c_hist` is determined by the months of the dates alone; these helpers
make that explicit. -/

/-- Month-change flags along a month sequence, starting from sentinel `lastM`.
The sentinel after processing a date is always that date's month. -/
def boundaryFlags (lastM : Int) : List Int → List Bool
  | [] => []
  | m :: rest => (decide (m ≠ lastM)) :: boundaryFlags m rest

/-- Cost value sequence generated from boundary flags: add `monthly` on a
`true` flag, keep the running value otherwise. -/
def costsFrom (monthly c : ℚ) : List Bool → List ℚ
  | [] => []
  | b :: rest =>
      let c2 := if b then c + monthly else c
      c2 :: costsFrom monthly c2 rest

/-- The month sequence of a return series. -/
def months (series : List (Date × ℚ)) : List Int :=
  series.map (fun p => p.1.month)

/-! ## Substring test (Python `"…" in t`, `app.py:48,103,105`) -/

/-- `leadsWith pat l` : `pat` is an initial segment of `l`. -/
def leadsWith : List Char → List Char → Bool
  | [], _ => true
  | _ :: _, [] => false
  | a :: as, b :: bs => a = b && leadsWith as bs

/-- `hasSub pat l` : `pat` occurs contiguously inside `l`. -/
def hasSub (pat : List Char) : List Char → Bool
  | [] => leadsWith pat []
  | b :: rest => leadsWith pat (b :: rest) || hasSub pat rest

/-- Python's `pat in s` on strings. -/
def strContains (s pat : String) : Bool :=
  hasSub pat.toList s.toList

/-! ## Required-symbol computation (`safe_get_prices`, `app.py:42-51`)

```python
needed = []
for t in tickers:
    if t:
        needed.append(t)
        if ".TW" not in t and ".TWO" not in t:
            needed.append("GBPTWD=X" if ".L" in t else "TWD=X")
needed = list(set(needed))
```
-/

/-- Whether a symbol is treated as home-market (Taiwan-listed). -/
def isHomeSym (t : String) : Bool :=
  strContains t ".TW" || strContains t ".TWO"

/-- The FX symbol a non-home asset needs. -/
def fxSym (t : String) : String :=
  if strContains t ".L" then "GBPTWD=X" else "TWD=X"

/-- The `needed` list before deduplication. -/
def neededRaw : List String → List String
  | [] => []
  | t :: rest =>
      if t ≠ "" then
        if isHomeSym t then t :: neededRaw rest
        else t :: fxSym t :: neededRaw rest
      else neededRaw rest

/-- `list(set(needed))`: one occurrence of each needed symbol (Python's set
order is unspecified; we keep first occurrences in order). -/
def neededSyms (tickers : List String) : List String :=
  (neededRaw tickers).dedup

/-! ## Frames

A fetched frame is a list of named columns over one shared date index;
a cell is `none` where the symbol has no observation on that date. -/

/-- A raw frame: columns of optional cells, all of length `nRows` in the
intended use. -/
abbrev RawFrame := List (String × List (Option ℚ))

/-- Column extraction (`app.py:61-76`): each needed symbol's column is copied
when present; a symbol absent from the download raises inside the `try` and
is skipped by `except: continue`. -/
def extractCols (needed : List String) (raw : RawFrame) : RawFrame :=
  needed.filterMap (fun t => (raw.lookup t).map (fun col => (t, col)))

/-- Forward-fill of one column given the value carried in from earlier rows
(`DataFrame.ffill`, `app.py:78`). -/
def ffillFrom (acc : Option ℚ) : List (Option ℚ) → List (Option ℚ)
  | [] => []
  | x :: rest =>
      let y := match x with | some v => some v | none => acc
      y :: ffillFrom y rest

/-- Forward-fill a column (nothing carried in before the first row). -/
def ffillCol (col : List (Option ℚ)) : List (Option ℚ) :=
  ffillFrom none col

/-- The most recent observed value in a prefix, after carrying in `acc`. -/
def lastObs (acc : Option ℚ) : List (Option ℚ) → Option ℚ
  | [] => acc
  | x :: rest => lastObs (match x with | some v => some v | none => acc) rest

/-- Row indices kept by `dropna()` (`app.py:78`): a date survives iff every
column has a value there after forward-fill. -/
def keptRows (cols : RawFrame) (nRows : ℕ) : List ℕ :=
  (List.range nRows).filter
    (fun i => cols.all (fun c => ((ffillCol c.2).getD i none).isSome))

/-- A clean frame: columns of filled cells. -/
abbrev Frame := List (String × List ℚ)

/-- The aligned table `final_prices.ffill().dropna()`: forward-filled columns
restricted to the surviving rows. -/
def alignFrame (cols : RawFrame) (nRows : ℕ) : Frame :=
  cols.map (fun c => (c.1, (keptRows cols nRows).map (fun i => ((ffillCol c.2).getD i none).getD 0)))

/-- `safe_get_prices` (`app.py:42-78`): `None` when the download came back
empty, otherwise the aligned table of whichever needed symbols had data. -/
def safe_get_prices (tickers : List String) (raw : RawFrame) (nRows : ℕ) : Option Frame :=
  if raw = [] then none
  else some (alignFrame (extractCols (neededSyms tickers) raw) nRows)

/-! ## Currency conversion (`app.py:100-108`)

```python
adj_p = pd.DataFrame(index=price_table.index)
for t in valid_tickers:
    if t in price_table.columns:
        if ".TW" in t or ".TWO" in t:
            adj_p[t] = price_table[t]
        elif ".L" in t:
            adj_p[t] = price_table[t] * price_table["GBPTWD=X"]
        else:
            adj_p[t] = price_table[t] * price_table["TWD=X"]
```
A missing FX column raises `KeyError` (caught only by the top-level
handler), modelled as `Except.error`. -/

/-- Element-wise product of two equally-indexed columns. -/
def mulCols (a b : List ℚ) : List ℚ :=
  List.zipWith (· * ·) a b

/-- The conversion loop; `.error` models the `KeyError` escaping to the
top-level `except`. -/
def convertCols (priceTable : Frame) : List String → Except String Frame
  | [] => .ok []
  | t :: rest => do
      let tl ← convertCols priceTable rest
      match priceTable.lookup t with
      | none => return tl
      | some col =>
          if isHomeSym t then
            return (t, col) :: tl
          else if strContains t ".L" then
            match priceTable.lookup "GBPTWD=X" with
            | none => .error "KeyError: GBPTWD=X"
            | some fx => return (t, mulCols col fx) :: tl
          else
            match priceTable.lookup "TWD=X" with
            | none => .error "KeyError: TWD=X"
            | some fx => return (t, mulCols col fx) :: tl

/-- The conversion rule the loop applies to one present column, as a
function of the symbol convention (used to state the loop's behaviour). -/
def convOne (priceTable : Frame) (t : String) (col : List ℚ) : Option (List ℚ) :=
  if isHomeSym t then some col
  else if strContains t ".L" then (priceTable.lookup "GBPTWD=X").map (mulCols col)
  else (priceTable.lookup "TWD=X").map (mulCols col)

/-! ## Returns and weighted combination (`app.py:111-114`)

```python
rets = adj_p.pct_change().dropna()
p_weights = [valid_weights[valid_tickers.index(c)] for c in adj_p.columns]
portfolio_ret = (rets * p_weights).sum(axis=1)
```
-/

/-- `pct_change` of one column, with the undefined first row already dropped
(`dropna`): entry `i` is `p[i+1]/p[i] - 1`. -/
def pctChange (ps : List ℚ) : List ℚ :=
  (ps.zip ps.tail).map (fun q => q.2 / q.1 - 1)

/-- `valid_weights[valid_tickers.index(c)]`: the weight of the asset whose
symbol is `c`, resolved by symbol lookup (first occurrence). -/
def weightOf (tickers : List String) (weights : List ℚ) (c : String) : ℚ :=
  weights.getD (tickers.indexOf c) 0

/-- The portfolio return on row `i` of the return table: the weighted sum
across columns, each column's weight resolved by symbol. -/
def portfolioAt (tickers : List String) (weights : List ℚ) (adjCols : Frame) (i : ℕ) : ℚ :=
  (adjCols.map (fun c => weightOf tickers weights c.1 * (pctChange c.2).getD i 0)).sum

/-- The portfolio daily-return series over `n` return rows. -/
def portfolioSeries (tickers : List String) (weights : List ℚ) (adjCols : Frame) (n : ℕ) :
    List ℚ :=
  (List.range n).map (portfolioAt tickers weights adjCols)

/-! ## Configuration gate (`app.py:83-93`)

```python
valid_tickers = [t for t in ticker_inputs if t]
valid_weights = [weight_inputs[i]/100 for i, t in enumerate(ticker_inputs) if t]
if not valid_tickers:
    st.error(...)
elif abs(sum(valid_weights) - 1.0) > 0.05:
    st.error(...)
else:
    ... safe_get_prices(valid_tickers, start_date) ...
```
-/

inductive ConfigError where
  | noSymbols
  | badWeightSum
deriving DecidableEq, Repr

def validTickers (tickerInputs : List String) : List String :=
  tickerInputs.filter (fun t => t ≠ "")

def validWeights (tickerInputs : List String) (weightInputs : List ℚ) : List ℚ :=
  ((tickerInputs.zip weightInputs).filter (fun p => p.1 ≠ "")).map (fun p => p.2 / 100)

/-- The pre-fetch validation: `none` means the engine proceeds. -/
def configGate (tickerInputs : List String) (weightInputs : List ℚ) : Option ConfigError :=
  if validTickers tickerInputs = [] then some .noSymbols
  else if |(validWeights tickerInputs weightInputs).sum - 1| > 1 / 20 then some .badWeightSum
  else none

/-- Outcome of the submit handler up to the data fetch. -/
inductive Outcome (α : Type) where
  | configError (e : ConfigError)
  | proceeded (a : α)
deriving DecidableEq, Repr

/-- The submit handler up to the fetch, over an abstract fetch function: the
weight check runs strictly before `safe_get_prices` is called. -/
def invoke {α : Type} (fetch : List String → α) (tickerInputs : List String)
    (weightInputs : List ℚ) : Outcome α :=
  match configGate tickerInputs weightInputs with
  | some e => .configError e
  | none => .proceeded (fetch (validTickers tickerInputs))

/-! ## Monte-Carlo projector

Modelled from the spec: `src/app.py` contains no Monte-Carlo code; §4.5 of
the specification describes a `MonteCarloProjector` that, from the realized
`(mean, std)`, a seed value, a path count and a horizon, generates
independent paths via `nextValue = currentValue * (1 + sample)`, with the
randomness source an injectable dependency. The injected source `rng` maps
`(pathIndex, stepIndex)` to a standard-normal draw; the sample is the draw
scaled to the realized distribution. -/

/-- Modelled from the spec: the values appended after the current one, taking
`n` more steps, the next draw being `draws k`; each step applies
`nextValue = currentValue * (1 + sample)` with `sample = mean + std * draw`. -/
def mcSteps (mean std : ℚ) (draws : ℕ → ℚ) (cur : ℚ) (k : ℕ) : ℕ → List ℚ
  | 0 => []
  | (n + 1) =>
      let next := cur * (1 + (mean + std * draws k))
      next :: mcSteps mean std draws next (k + 1) n

/-- Modelled from the spec: one simulated path over `horizon` steps starting
from `seedValue`; a `SimulatedPath` has `horizon + 1` values. -/
def mcPath (mean std : ℚ) (draws : ℕ → ℚ) (seedValue : ℚ) (horizon : ℕ) : List ℚ :=
  seedValue :: mcSteps mean std draws seedValue 0 horizon

/-- Modelled from the spec: the SimulationBundle of `pathCount` independent
paths, path `p` consuming only the draws `rng p ·`. -/
def mcBundle (mean std : ℚ) (rng : ℕ → ℕ → ℚ) (seedValue : ℚ)
    (pathCount horizon : ℕ) : List (List ℚ) :=
  (List.range pathCount).map (fun p => mcPath mean std (rng p) seedValue horizon)

/-! ## Helper lemmas -/

lemma simStep_cost (monthly : ℚ) (s : SimState) (d : Date) (r : ℚ) :
    (simStep monthly s d r).cost = if d.month ≠ s.lastM then s.cost + monthly else s.cost := by
  simp only [simStep]
  by_cases h : d.month ≠ s.lastM <;> simp [h]

lemma simStep_lastM (monthly : ℚ) (s : SimState) (d : Date) (r : ℚ) :
    (simStep monthly s d r).lastM = d.month := by
  simp only [simStep]
  by_cases h : d.month ≠ s.lastM <;> simp [h]
  omega

/-- `c_hist` depends only on the starting cost, the sentinel, and the months. -/
lemma runSim_cost_eq (monthly : ℚ) :
    ∀ (series : List (Date × ℚ)) (s : SimState),
      (runSim monthly s series).2 = costsFrom monthly s.cost (boundaryFlags s.lastM (months series))
  | [], _ => rfl
  | (d, r) :: rest, s => by
      simp only [runSim, months, List.map_cons, boundaryFlags, costsFrom]
      have hc := simStep_cost monthly s d r
      have hm := simStep_lastM monthly s d r
      have ih := runSim_cost_eq monthly rest (simStep monthly s d r)
      rw [ih, hc, hm]
      by_cases h : d.month ≠ s.lastM <;> simp [h, months]

/-- `costsFrom` is monotone when the contribution is non-negative. -/
lemma costsFrom_chain (monthly : ℚ) (hm : 0 ≤ monthly) :
    ∀ (bs : List Bool) (c : ℚ), List.Chain' (· ≤ ·) (c :: costsFrom monthly c bs)
  | [], _ => by simp [costsFrom]
  | b :: rest, c => by
      simp only [costsFrom]
      refine List.Chain'.cons ?_ (costsFrom_chain monthly hm rest _)
      by_cases hb : b
      · simp [hb]; linarith
      · simp [hb]

/-- Consecutive entries of the cost chain differ by `monthly` exactly on a
`true` flag and are equal otherwise. -/
lemma costsFrom_getD_succ (monthly : ℚ) :
    ∀ (bs : List Bool) (c : ℚ) (i : ℕ), i < bs.length →
      (c :: costsFrom monthly c bs).getD (i + 1) 0 =
        (c :: costsFrom monthly c bs).getD i 0 + (if bs.getD i false then monthly else 0)
  | [], _, i, hi => by simp at hi
  | b :: rest, c, 0, _ => by
      by_cases hb : b <;> simp [costsFrom, hb]
  | b :: rest, c, (i + 1), hi => by
      have ih := costsFrom_getD_succ monthly rest (if b then c + monthly else c) i
        (by simpa using hi)
      simpa only [costsFrom, List.getD_cons_succ] using ih

/-- A flag is set exactly when the month differs from the previously processed
month (the sentinel for the very first date). -/
lemma boundaryFlags_getD :
    ∀ (ms : List Int) (lastM : Int) (i : ℕ), i < ms.length →
      (boundaryFlags lastM ms).getD i false =
        decide (ms.getD i 0 ≠ (if i = 0 then lastM else ms.getD (i - 1) 0))
  | [], _, i, hi => by simp at hi
  | m :: rest, lastM, 0, _ => by simp [boundaryFlags]
  | m :: rest, lastM, (i + 1), hi => by
      have ih := boundaryFlags_getD rest m i (by simpa using hi)
      simp only [boundaryFlags, List.getD_cons_succ]
      rw [ih]
      cases i <;> simp

lemma costsFrom_length (monthly : ℚ) :
    ∀ (bs : List Bool) (c : ℚ), (costsFrom monthly c bs).length = bs.length
  | [], _ => rfl
  | _ :: rest, c => by simp [costsFrom, costsFrom_length monthly rest]

lemma boundaryFlags_length :
    ∀ (ms : List Int) (lastM : Int), (boundaryFlags lastM ms).length = ms.length
  | [], _ => rfl
  | _ :: rest, _ => by simp [boundaryFlags, boundaryFlags_length rest]

/-- The months of a zipped series are the months of the dates when there are
enough returns. -/
lemma months_zip (dates : List Date) (rets : List ℚ) (h : dates.length ≤ rets.length) :
    months (dates.zip rets) = dates.map Date.month := by
  have : months (dates.zip rets) = ((dates.zip rets).map Prod.fst).map Date.month := by
    simp [months]
  rw [this, List.map_fst_zip _ _ h]

lemma mcSteps_length (mean std : ℚ) (draws : ℕ → ℚ) :
    ∀ (n : ℕ) (cur : ℚ) (k : ℕ), (mcSteps mean std draws cur k n).length = n
  | 0, _, _ => rfl
  | (n + 1), cur, k => by
      simp [mcSteps, mcSteps_length mean std draws n]

/-- Each consecutive pair of path values satisfies the multiplicative
recurrence with the corresponding draw. -/
lemma mcSteps_getD (mean std : ℚ) (draws : ℕ → ℚ) :
    ∀ (n : ℕ) (cur : ℚ) (k i : ℕ), i < n →
      (cur :: mcSteps mean std draws cur k n).getD (i + 1) 0 =
        (cur :: mcSteps mean std draws cur k n).getD i 0 *
          (1 + (mean + std * draws (k + i)))
  | 0, _, _, i, hi => by simp at hi
  | (n + 1), cur, k, 0, _ => by simp [mcSteps]
  | (n + 1), cur, k, (i + 1), hi => by
      have ih := mcSteps_getD mean std draws n (cur * (1 + (mean + std * draws k)))
        (k + 1) i (by omega)
      simp only [mcSteps, List.getD_cons_succ]
      have harg : k + 1 + i = k + (i + 1) := by omega
      rw [harg] at ih
      exact ih

/-- Two draw sources agreeing on the consumed window generate the same
steps. -/
lemma mcSteps_congr (mean std : ℚ) (draws₁ draws₂ : ℕ → ℚ) :
    ∀ (n : ℕ) (cur : ℚ) (k : ℕ), (∀ j, k ≤ j → j < k + n → draws₁ j = draws₂ j) →
      mcSteps mean std draws₁ cur k n = mcSteps mean std draws₂ cur k n
  | 0, _, _, _ => rfl
  | (n + 1), cur, k, h => by
      have hk : draws₁ k = draws₂ k := h k le_rfl (by omega)
      simp only [mcSteps, hk]
      exact congrArg _ (mcSteps_congr mean std draws₁ draws₂ n _ (k + 1)
        (fun j h1 h2 => h j (by omega) (by omega)))

/-- If no symbol input is non-empty, the valid weight list is empty. -/
lemma validWeights_of_no_tickers (tickerInputs : List String) (weightInputs : List ℚ)
    (h : validTickers tickerInputs = []) :
    validWeights tickerInputs weightInputs = [] := by
  have hall : ∀ t ∈ tickerInputs, t = "" := by
    intro t ht
    by_contra hne
    have : t ∈ validTickers tickerInputs := by
      simp [validTickers, List.mem_filter, ht, hne]
    simp [h] at this
  have hfil : (tickerInputs.zip weightInputs).filter (fun p => p.1 ≠ "") = [] := by
    rw [List.filter_eq_nil_iff]
    intro p hp
    have := hall p.1 (List.of_mem_zip hp).1
    simp [this]
  rw [validWeights, hfil]
  rfl

/-- The columns surviving extraction are exactly the needed symbols that have
data (`except: continue` drops the rest). -/
lemma extractCols_fst (raw : RawFrame) :
    ∀ (needed : List String), (extractCols needed raw).map Prod.fst =
      needed.filter (fun t => (raw.lookup t).isSome)
  | [] => rfl
  | t :: rest => by
      have ih := extractCols_fst raw rest
      cases h : raw.lookup t with
      | none => simpa [extractCols, List.filterMap_cons, h, List.filter_cons] using ih
      | some col => simpa [extractCols, List.filterMap_cons, h, List.filter_cons] using ih

/-- `pct_change` entry `i` (after dropping the undefined first row) is the
simple return from row `i` to row `i + 1` of the price column. -/
lemma pctChange_getD (ps : List ℚ) (i : ℕ) (h : i + 1 < ps.length) :
    (pctChange ps).getD i 0 = ps.getD (i + 1) 0 / ps.getD i 0 - 1 := by
  have hz : i < (ps.zip ps.tail).length := by
    simp [List.length_zip, List.length_tail]
    omega
  have hlen : i < (pctChange ps).length := by
    simpa [pctChange] using hz
  rw [List.getD_eq_getElem _ _ hlen, List.getD_eq_getElem _ _ (by omega : i + 1 < ps.length),
    List.getD_eq_getElem _ _ (by omega : i < ps.length)]
  simp [pctChange, List.getElem_zip, List.getElem_tail]

lemma convertCols_lookup (priceTable : Frame) :
    ∀ (tickers : List String) (out : Frame), convertCols priceTable tickers = .ok out →
      ∀ t : String, out.lookup t =
        if t ∈ tickers then (priceTable.lookup t).bind (convOne priceTable t) else none
  | [], out, hok, t => by
      simp only [convertCols] at hok
      cases hok
      simp
  | t' :: rest, out, hok, t => by
      simp only [convertCols] at hok
      cases hrest : convertCols priceTable rest with
      | error e =>
        rw [hrest] at hok
        simp [Bind.bind, Except.bind] at hok
      | ok tl =>
        rw [hrest] at hok
        simp only [Bind.bind, Except.bind] at hok
        have ih := convertCols_lookup priceTable rest tl hrest
        cases hpt : priceTable.lookup t' with
        | none =>
          rw [hpt] at hok
          simp only [pure, Except.pure] at hok
          cases hok
          by_cases ht : t = t'
          · subst ht
            rw [ih t]
            by_cases hm : t ∈ rest <;> simp [hm, hpt]
          · rw [ih t]
            simp [List.mem_cons, ht]
        | some col =>
          rw [hpt] at hok
          by_cases hhome : isHomeSym t'
          · simp only [hhome, if_true, pure, Except.pure] at hok
            cases hok
            by_cases ht : t = t'
            · subst ht
              simp [List.lookup, hpt, convOne, hhome]
            · have hbeq : (t == t') = false := by simpa using ht
              simp only [List.lookup, hbeq]
              rw [ih t]
              simp [List.mem_cons, ht]
          · by_cases hl : strContains t' ".L"
            · cases hfx : priceTable.lookup "GBPTWD=X" with
              | none => simp [hhome, hl, hfx] at hok
              | some fx =>
                simp only [hhome, hl, hfx, if_false, if_true, Bool.false_eq_true, pure,
                  Except.pure] at hok
                cases hok
                by_cases ht : t = t'
                · subst ht
                  simp [List.lookup, hpt, convOne, hhome, hl, hfx]
                · have hbeq : (t == t') = false := by simpa using ht
                  simp only [List.lookup, hbeq]
                  rw [ih t]
                  simp [List.mem_cons, ht]
            · cases hfx : priceTable.lookup "TWD=X" with
              | none => simp [hhome, hl, hfx] at hok
              | some fx =>
                simp only [hhome, hl, hfx, if_false, if_true, Bool.false_eq_true, pure,
                  Except.pure] at hok
                cases hok
                by_cases ht : t = t'
                · subst ht
                  simp [List.lookup, hpt, convOne, hhome, hl, hfx]
                · have hbeq : (t == t') = false := by simpa using ht
                  simp only [List.lookup, hbeq]
                  rw [ih t]
                  simp [List.mem_cons, ht]

/-- The index of a column's first observation. -/
def firstObsIdx (col : List (Option ℚ)) : ℕ :=
  col.findIdx (fun x => x.isSome)

lemma lastObs_append (acc : Option ℚ) :
    ∀ (l1 l2 : List (Option ℚ)), lastObs acc (l1 ++ l2) = lastObs (lastObs acc l1) l2
  | [], _ => rfl
  | x :: rest, l2 => by
      simp only [List.cons_append, lastObs]
      exact lastObs_append _ rest l2

lemma lastObs_of_all_none (acc : Option ℚ) :
    ∀ (l : List (Option ℚ)), (∀ x ∈ l, x = none) → lastObs acc l = acc
  | [], _ => rfl
  | x :: rest, h => by
      have hx : x = none := h x (by simp)
      simp only [lastObs, hx]
      exact lastObs_of_all_none acc rest (fun y hy => h y (by simp [hy]))

lemma lastObs_eq_none_iff (acc : Option ℚ) :
    ∀ (l : List (Option ℚ)), (lastObs acc l = none ↔ acc = none ∧ ∀ x ∈ l, x = none)
  | [] => by simp [lastObs]
  | x :: rest => by
      cases x with
      | none =>
          simp only [lastObs]
          rw [lastObs_eq_none_iff acc rest]
          constructor
          · rintro ⟨h1, h2⟩
            exact ⟨h1, fun y hy => by
              rcases List.mem_cons.mp hy with h | h
              · simp [h]
              · exact h2 y h⟩
          · rintro ⟨h1, h2⟩
            exact ⟨h1, fun y hy => h2 y (by simp [hy])⟩
      | some v =>
          simp only [lastObs]
          rw [lastObs_eq_none_iff (some v) rest]
          constructor
          · rintro ⟨h1, _⟩
            exact absurd h1 (by simp)
          · rintro ⟨_, h2⟩
            exact absurd (h2 (some v) (by simp)) (by simp)

/-- The forward-filled cell at row `i` is the most recent observation in the
first `i + 1` rows of the column. -/
lemma ffill_getD :
    ∀ (col : List (Option ℚ)) (acc : Option ℚ) (i : ℕ), i < col.length →
      (ffillFrom acc col).getD i none = lastObs acc (col.take (i + 1))
  | [], _, i, hi => by simp at hi
  | x :: rest, acc, 0, _ => by
      cases x <;> simp [ffillFrom, lastObs, List.take_succ]
  | x :: rest, acc, (i + 1), hi => by
      have ih := ffill_getD rest (match x with | some v => some v | none => acc) i
        (by simpa using hi)
      cases x <;> simpa [ffillFrom, lastObs] using ih

lemma firstObsIdx_le :
    ∀ (col : List (Option ℚ)) (j : ℕ), j < col.length → (col.getD j none).isSome →
      firstObsIdx col ≤ j
  | [], j, hj, _ => by simp at hj
  | x :: rest, 0, _, hs => by
      have hx : x.isSome := by simpa using hs
      simp [firstObsIdx, List.findIdx_cons, hx]
  | x :: rest, (j + 1), hj, hs => by
      by_cases hx : x.isSome
      · simp [firstObsIdx, List.findIdx_cons, hx]
      · have ih := firstObsIdx_le rest j (by simpa using hj) (by simpa using hs)
        have hxf : x.isSome = false := by simpa using hx
        simp only [firstObsIdx, List.findIdx_cons, hxf, cond_false] at ih ⊢
        omega

/-- All-`none` prefixes correspond to indexwise missing cells. -/
lemma take_all_none_iff (col : List (Option ℚ)) (i : ℕ) (hi : i < col.length) :
    (∀ x ∈ col.take (i + 1), x = none) ↔ ∀ j, j ≤ i → col.getD j none = none := by
  constructor
  · intro h j hj
    have hjl : j < col.length := by omega
    have hjt : j < (col.take (i + 1)).length := by
      simp [List.length_take]
      omega
    have he : (col.take (i + 1))[j] = col[j] := by
      simp
    have hmem : (col.take (i + 1))[j] ∈ col.take (i + 1) := List.getElem_mem hjt
    rw [List.getD_eq_getElem _ _ hjl, ← he]
    exact h _ hmem
  · intro h x hx
    obtain ⟨m, hm, he⟩ := List.mem_iff_getElem.mp hx
    have hmi : m ≤ i := by
      have := hm
      simp [List.length_take] at this
      omega
    have hml : m < col.length := by omega
    have he2 : (col.take (i + 1))[m] = col[m] := by
      simp
    rw [← he, he2, ← List.getD_eq_getElem col none hml]
    exact h m hmi

/-- Forward-fill across a gap: if row `i` has no observation and row `j` is
the most recent earlier row that does, the filled cell at `i` equals the
observation at `j`. -/
lemma ffill_gap (col : List (Option ℚ)) (i j : ℕ) (hi : i < col.length) (hj : j < i)
    (hsome : (col.getD j none).isSome)
    (hmid : ∀ k, j < k → k < i → col.getD k none = none)
    (hcell : col.getD i none = none) :
    (ffillCol col).getD i none = col.getD j none := by
  have hjl : j < col.length := by omega
  rw [ffillCol, ffill_getD col none i hi]
  have hgi : col[i] = none := by
    rwa [List.getD_eq_getElem _ _ hi] at hcell
  have hti : col.take (i + 1) = col.take i ++ [(none : Option ℚ)] := by
    rw [List.take_succ, List.getElem?_eq_getElem hi]
    simp [hgi]
  rw [hti, lastObs_append]
  simp only [lastObs]
  have hdecomp : col.take i = col.take (j + 1) ++ (col.take i).drop (j + 1) := by
    conv_lhs => rw [← List.take_append_drop (j + 1) (col.take i)]
    rw [List.take_take]
    congr 2
    omega
  rw [hdecomp, lastObs_append]
  have hmidnone : ∀ x ∈ (col.take i).drop (j + 1), x = none := by
    intro x hx
    obtain ⟨m, hm, he⟩ := List.mem_iff_getElem.mp hx
    have hlen2 : ((col.take i).drop (j + 1)).length = i - (j + 1) := by
      simp [List.length_drop, List.length_take]
      omega
    have hk : j + 1 + m < i := by omega
    have hkl : j + 1 + m < col.length := by omega
    have he2 : ((col.take i).drop (j + 1))[m] = col[j + 1 + m] := by
      simp
    rw [← he, he2, ← List.getD_eq_getElem col none hkl]
    exact hmid (j + 1 + m) (by omega) hk
  rw [lastObs_of_all_none _ _ hmidnone]
  obtain ⟨v, hv⟩ := Option.isSome_iff_exists.mp hsome
  have hgj : col[j] = some v := by
    rwa [List.getD_eq_getElem _ _ hjl] at hv
  have htj : col.take (j + 1) = col.take j ++ [some v] := by
    rw [List.take_succ, List.getElem?_eq_getElem hjl]
    simp [hgj]
  rw [htj, lastObs_append]
  simp only [lastObs]
  exact hv.symm

/-- A row survives `dropna` iff every column has an observation at or before
that row. -/
lemma keptRows_mem (cols : RawFrame) (nRows : ℕ)
    (hlen : ∀ c ∈ cols, c.2.length = nRows) (i : ℕ) (hi : i < nRows) :
    i ∈ keptRows cols nRows ↔
      ∀ c ∈ cols, ∃ j, j ≤ i ∧ (c.2.getD j none).isSome := by
  rw [keptRows, List.mem_filter]
  simp only [List.mem_range, List.all_eq_true]
  constructor
  · rintro ⟨_, h⟩ c hc
    have hcl : c.2.length = nRows := hlen c hc
    have hs := h c hc
    rw [ffillCol, ffill_getD c.2 none i (by omega)] at hs
    by_contra hnone
    push_neg at hnone
    have hall : ∀ x ∈ c.2.take (i + 1), x = none := by
      rw [take_all_none_iff c.2 i (by omega)]
      intro j hj
      have := hnone j hj
      simpa [Option.not_isSome_iff_eq_none] using this
    rw [(lastObs_eq_none_iff none (c.2.take (i + 1))).mpr ⟨rfl, hall⟩] at hs
    simp at hs
  · intro h
    refine ⟨hi, ?_⟩
    intro c hc
    have hcl : c.2.length = nRows := hlen c hc
    obtain ⟨j, hj, hjs⟩ := h c hc
    rw [ffillCol, ffill_getD c.2 none i (by omega)]
    rw [Option.isSome_iff_ne_none]
    intro hnone
    rw [lastObs_eq_none_iff] at hnone
    have := (take_all_none_iff c.2 i (by omega)).mp hnone.2 j hj
    rw [this] at hjs
    simp at hjs

/-! ## Claim theorems -/

/-- C1 (counterexample): on an empty portfolio-return series with
`initialCash = 1000`, `monthly = 500`, the code does NOT produce a one-point
timeline `(initialCash, initialCash)`: both histories are empty and the
dashboard read `v_hist[-1]` fails (an `IndexError`, reaching the generic
`except` handler), contradicting the claim's "does not raise an exception". -/
theorem C1_counterexample :
    (compound 1000 500 []).1 ≠ [(1000 : ℚ)] ∧ finalRead (compound 1000 500 []) = none := by
  constructor
  · simp [compound, runSim]
  · rfl

/-- C1 (amended): an empty portfolio daily-return series yields EMPTY
value/cost histories (no point at all, not a one-point timeline), and the
subsequent final-value read `v_hist[-1]` yields no value — in the program an
`IndexError` surfaced by the top-level handler as an unexpected error. -/
theorem C1_empty_series (initialCash monthly : ℚ) :
    compound initialCash monthly [] = ([], []) ∧
      finalRead (compound initialCash monthly []) = none :=
  ⟨rfl, rfl⟩

/-- C2 (counterexample): for the two-day return series `[0.0, 0.10]` within a
single period, `initialCash = 1000`, `periodicContribution = 0`, the asset
timeline is not the claimed three-point `[1000, 1000, 1100]`. -/
theorem C2_counterexample :
    (compound 1000 0 [(⟨2021, 1, 4⟩, 0), (⟨2021, 1, 5⟩, 1 / 10)]).1 ≠
      [(1000 : ℚ), 1000, 1100] := by
  have h : (compound 1000 0 [(⟨2021, 1, 4⟩, 0), (⟨2021, 1, 5⟩, 1 / 10)]).1 =
      [(1000 : ℚ), 1100] := by
    norm_num [compound, runSim, simStep]
  rw [h]
  simp

/-- C2 (amended): on the two-day return series `[0.0, 0.10]` with
`initialCash = 1000`, `periodicContribution = 0` and both dates in one
calendar month, the timeline is the two-point `([1000, 1100], [1000, 1000])`:
one `(value, cost)` point per return row, with no separate `t = 0` point
(the initial cash only seeds the loop state). -/
theorem C2_compounding :
    compound 1000 0 [(⟨2021, 1, 4⟩, 0), (⟨2021, 1, 5⟩, 1 / 10)] =
      ([1000, 1100], [1000, 1000]) := by
  norm_num [compound, runSim, simStep]

/-- C10: the contribution period key is the bare calendar month number, not
the `(year, month)` pair: (1) the cost history is a function of the month
sequence alone through the month-change flags started at sentinel `-1`;
(2) a flag is set exactly when the month number differs from the previously
processed date's month number (the first date compares against `-1`);
(3) concretely, consecutive dates 2020‑12‑31 and 2021‑12‑31 share month
number 12, so the second posts no contribution despite the year change. -/
theorem C10_month_only_period_key (init monthly : ℚ) (series : List (Date × ℚ)) :
    (compound init monthly series).2 =
        costsFrom monthly init (boundaryFlags (-1) (months series))
    ∧ (∀ i, i < series.length →
        (boundaryFlags (-1) (months series)).getD i false =
          decide ((months series).getD i 0 ≠
            (if i = 0 then -1 else (months series).getD (i - 1) 0)))
    ∧ (compound 1000 100 [(⟨2020, 12, 31⟩, 0), (⟨2021, 12, 31⟩, 0)]).2 = [1100, 1100] := by
  refine ⟨runSim_cost_eq monthly series _, ?_, ?_⟩
  · intro i hi
    exact boundaryFlags_getD (months series) (-1) i (by simpa [months] using hi)
  · norm_num [compound, runSim, simStep]

/-- C10 (witness): the theorem instantiated at the concrete two-date series
crossing a year boundary inside month 12. -/
theorem C10_witness :
    (compound 1000 100 [(⟨2020, 12, 31⟩, (0 : ℚ)), (⟨2021, 12, 31⟩, 0)]).2 = [1100, 1100] :=
  (C10_month_only_period_key 1000 100 []).2.2

/-- C5: throughout the compounding simulation, with a non-negative periodic
contribution, `cumulativeCost` (prefixed with its starting value) is
non-decreasing; it is independent of the return values (two return series
over the same dates give identical cost sequences); consecutive cost entries
differ by exactly `monthly` at a period boundary (month number change, the
first date comparing against the sentinel `-1`) and are equal elsewhere; and
the first date of the series always posts one contribution. -/
theorem C5_cost_invariants (init monthly : ℚ) (hm : 0 ≤ monthly)
    (dates : List Date) (rets1 rets2 : List ℚ)
    (h1 : rets1.length = dates.length) (h2 : rets2.length = dates.length)
    (hmon : ∀ d ∈ dates, 1 ≤ d.month) :
    List.Chain' (· ≤ ·) (init :: (compound init monthly (dates.zip rets1)).2)
    ∧ (compound init monthly (dates.zip rets1)).2 =
        (compound init monthly (dates.zip rets2)).2
    ∧ (∀ i, i < dates.length →
        (init :: (compound init monthly (dates.zip rets1)).2).getD (i + 1) 0 =
          (init :: (compound init monthly (dates.zip rets1)).2).getD i 0 +
            (if (dates.map Date.month).getD i 0 ≠
                (if i = 0 then -1 else (dates.map Date.month).getD (i - 1) 0)
             then monthly else 0))
    ∧ (dates ≠ [] →
        (init :: (compound init monthly (dates.zip rets1)).2).getD 1 0 = init + monthly) := by
  have hz1 : months (dates.zip rets1) = dates.map Date.month :=
    months_zip dates rets1 (le_of_eq h1.symm)
  have hz2 : months (dates.zip rets2) = dates.map Date.month :=
    months_zip dates rets2 (le_of_eq h2.symm)
  have hc1 : (compound init monthly (dates.zip rets1)).2 =
      costsFrom monthly init (boundaryFlags (-1) (dates.map Date.month)) := by
    rw [compound, runSim_cost_eq, hz1]
  have hc2 : (compound init monthly (dates.zip rets2)).2 =
      costsFrom monthly init (boundaryFlags (-1) (dates.map Date.month)) := by
    rw [compound, runSim_cost_eq, hz2]
  have hstep : ∀ i, i < dates.length →
      (init :: (compound init monthly (dates.zip rets1)).2).getD (i + 1) 0 =
        (init :: (compound init monthly (dates.zip rets1)).2).getD i 0 +
          (if (dates.map Date.month).getD i 0 ≠
              (if i = 0 then -1 else (dates.map Date.month).getD (i - 1) 0)
           then monthly else 0) := by
    intro i hi
    have hib : i < (boundaryFlags (-1) (dates.map Date.month)).length := by
      rw [boundaryFlags_length]; simpa using hi
    rw [hc1, costsFrom_getD_succ monthly _ init i hib,
      boundaryFlags_getD _ _ i (by simpa using hi)]
    by_cases hcond : (dates.map Date.month).getD i 0 ≠
        (if i = 0 then -1 else (dates.map Date.month).getD (i - 1) 0)
    · simp [hcond]
    · simp [hcond]
  refine ⟨?_, ?_, hstep, ?_⟩
  · rw [hc1]; exact costsFrom_chain monthly hm _ init
  · rw [hc1, hc2]
  · intro hne
    match dates, hmon, hstep with
    | d :: ds, hmon, hstep =>
      have h0 := hstep 0 (by simp)
      have hd : 1 ≤ d.month := hmon d (List.mem_cons_self d ds)
      rw [if_pos (by simp; omega)] at h0
      simpa using h0

/-- C5 (witness): the invariants instantiated on a concrete two-month series
with two different return paths. -/
theorem C5_cost_invariants_witness :
    (0 : ℚ) ≤ 100
    ∧ (∀ d ∈ [(⟨2024, 1, 5⟩ : Date), ⟨2024, 2, 5⟩], 1 ≤ d.month)
    ∧ (compound 1000 100
          ([(⟨2024, 1, 5⟩ : Date), ⟨2024, 2, 5⟩].zip [(1 : ℚ) / 10, 0])).2 =
        (compound 1000 100
          ([(⟨2024, 1, 5⟩ : Date), ⟨2024, 2, 5⟩].zip [(0 : ℚ), 0])).2 :=
  ⟨by norm_num, by decide,
    (C5_cost_invariants 1000 100 (by norm_num) [⟨2024, 1, 5⟩, ⟨2024, 2, 5⟩]
      [1 / 10, 0] [0, 0] rfl rfl (by decide)).2.1⟩

/-- C7: if the valid weight fractions sum to within the tolerance `0.05` of
`1.0`, the submit handler proceeds to the data fetch; if the sum deviates by
more than the tolerance, it stops with a configuration error (weights or, in
the degenerate all-blank case, missing symbols) and the outcome is the same
for every fetch function — no price data is fetched and nothing else runs. -/
theorem C7_weight_gate {α : Type} (fetch : List String → α)
    (tickerInputs : List String) (weightInputs : List ℚ) :
    (|(validWeights tickerInputs weightInputs).sum - 1| ≤ 1 / 20 →
      invoke fetch tickerInputs weightInputs =
        Outcome.proceeded (fetch (validTickers tickerInputs)))
    ∧ (|(validWeights tickerInputs weightInputs).sum - 1| > 1 / 20 →
        (∃ e, invoke fetch tickerInputs weightInputs = Outcome.configError e)
        ∧ ∀ (β : Type) (g₁ g₂ : List String → β),
            invoke g₁ tickerInputs weightInputs = invoke g₂ tickerInputs weightInputs) := by
  constructor
  · intro h
    have hvt : validTickers tickerInputs ≠ [] := by
      intro hempty
      rw [validWeights_of_no_tickers tickerInputs weightInputs hempty] at h
      norm_num at h
    have hg : configGate tickerInputs weightInputs = none := by
      rw [configGate, if_neg hvt, if_neg (not_lt.mpr h)]
    simp [invoke, hg]
  · intro h
    by_cases hvt : validTickers tickerInputs = []
    · have hg : configGate tickerInputs weightInputs = some .noSymbols := by
        rw [configGate, if_pos hvt]
      exact ⟨⟨.noSymbols, by simp [invoke, hg]⟩, fun β g₁ g₂ => by simp [invoke, hg]⟩
    · have hg : configGate tickerInputs weightInputs = some .badWeightSum := by
        rw [configGate, if_neg hvt, if_pos h]
      exact ⟨⟨.badWeightSum, by simp [invoke, hg]⟩, fun β g₁ g₂ => by simp [invoke, hg]⟩

/-- C7 (witness): a 100% weight proceeds; a 50% weight is rejected before the
fetch, with the same outcome whatever the fetch function would return. -/
theorem C7_weight_gate_witness :
    (|(validWeights ["0050.TW"] [100]).sum - 1| ≤ 1 / 20
      ∧ invoke id ["0050.TW"] [100] = Outcome.proceeded ["0050.TW"])
    ∧ (|(validWeights ["0050.TW"] [50]).sum - 1| > 1 / 20
      ∧ ∃ e, invoke id ["0050.TW"] [50] = Outcome.configError e) := by
  have h100 : |(validWeights ["0050.TW"] [100]).sum - 1| ≤ 1 / 20 := by
    have h : validWeights ["0050.TW"] [100] = [1] := by simp [validWeights]
    rw [h]; norm_num [abs_le]
  have h50 : |(validWeights ["0050.TW"] [50]).sum - 1| > 1 / 20 := by
    have h : validWeights ["0050.TW"] [50] = [1 / 2] := by simp [validWeights]; norm_num
    rw [h]; norm_num [lt_abs]
  exact ⟨⟨h100, (C7_weight_gate id ["0050.TW"] [100]).1 h100⟩,
    ⟨h50, ((C7_weight_gate id ["0050.TW"] [50]).2 h50).1⟩⟩

/-- C4 (spec-modelled: the repository has no Monte-Carlo source code): the
projector is deterministic given the injected randomness — two invocations
whose randomness sources agree on the consumed draws produce identical path
bundles — and each of the `pathCount` paths starts at the seed value and
follows `nextValue = currentValue * (1 + sample)`, path `p` consuming only
its own draws `rng p ·`. -/
theorem C4_mc_reproducible (mean std seedValue : ℚ) (pathCount horizon : ℕ)
    (rng₁ rng₂ : ℕ → ℕ → ℚ)
    (hagree : ∀ p k, p < pathCount → k < horizon → rng₁ p k = rng₂ p k) :
    mcBundle mean std rng₁ seedValue pathCount horizon =
      mcBundle mean std rng₂ seedValue pathCount horizon
    ∧ (mcBundle mean std rng₁ seedValue pathCount horizon).length = pathCount
    ∧ (∀ p, p < pathCount →
        (mcBundle mean std rng₁ seedValue pathCount horizon).getD p [] =
          mcPath mean std (rng₁ p) seedValue horizon
        ∧ (mcPath mean std (rng₁ p) seedValue horizon).length = horizon + 1
        ∧ (mcPath mean std (rng₁ p) seedValue horizon).getD 0 0 = seedValue
        ∧ ∀ k, k < horizon →
            (mcPath mean std (rng₁ p) seedValue horizon).getD (k + 1) 0 =
              (mcPath mean std (rng₁ p) seedValue horizon).getD k 0 *
                (1 + (mean + std * rng₁ p k))) := by
  refine ⟨?_, by simp [mcBundle], ?_⟩
  · unfold mcBundle
    apply List.map_congr_left
    intro p hp
    unfold mcPath
    exact congrArg _ (mcSteps_congr mean std (rng₁ p) (rng₂ p) horizon seedValue 0
      (fun j _ hj => hagree p j (List.mem_range.mp hp) (by omega)))
  · intro p hp
    refine ⟨?_, by simp [mcPath, mcSteps_length], rfl, ?_⟩
    · unfold mcBundle
      have hlt : p < ((List.range pathCount).map
          (fun q => mcPath mean std (rng₁ q) seedValue horizon)).length := by
        simpa using hp
      rw [List.getD_eq_getElem _ _ hlt]
      simp
    · intro k hk
      have := mcSteps_getD mean std (rng₁ p) horizon seedValue 0 k hk
      simpa [mcPath] using this

/-- C4 (witness): two randomness sources that agree on the single consumed
draw (but differ elsewhere) produce the same one-path, one-step bundle. -/
theorem C4_mc_reproducible_witness :
    (∀ p k, p < 1 → k < 1 →
      (fun _ _ => (0 : ℚ)) p k = (fun q j => if q = 0 ∧ j = 0 then (0 : ℚ) else 5) p k)
    ∧ mcBundle 0 1 (fun _ _ => 0) 100 1 1 =
        mcBundle 0 1 (fun q j => if q = 0 ∧ j = 0 then 0 else 5) 100 1 1 := by
  have h : ∀ p k, p < 1 → k < 1 →
      (fun _ _ => (0 : ℚ)) p k = (fun q j => if q = 0 ∧ j = 0 then (0 : ℚ) else 5) p k := by
    intro p k hp hk
    simp [Nat.lt_one_iff.mp hp, Nat.lt_one_iff.mp hk]
  exact ⟨h, (C4_mc_reproducible 0 1 100 1 1 _ _ h).1⟩

/-- C3 (counterexample): the asset `"AAA"` requires `"TWD=X"`; with a
download holding only a `"TWD=X"` column, `safe_get_prices` neither fails
nor aborts: it returns a partial table containing just the FX column,
silently dropping the symbol with no data. -/
theorem C3_counterexample :
    safe_get_prices ["AAA"] [("TWD=X", [some 30])] 1 = some [("TWD=X", [30])]
    ∧ safe_get_prices ["AAA"] [("TWD=X", [some 30])] 1 ≠ none := by
  constructor
  · rfl
  · intro h
    simp [safe_get_prices] at h

/-- C3 (amended): only a completely empty download aborts the invocation
(`safe_get_prices` returns `None`, app.py:55-56); with a non-empty download,
a required symbol that has no data is silently skipped (`except: continue`,
app.py:75-76) and the aligned table's columns are exactly the needed symbols
that do have data. -/
theorem C3_skip_missing (tickers : List String) (raw : RawFrame) (nRows : ℕ) :
    (safe_get_prices tickers raw nRows = none ↔ raw = [])
    ∧ (extractCols (neededSyms tickers) raw).map Prod.fst =
        (neededSyms tickers).filter (fun t => (raw.lookup t).isSome) := by
  constructor
  · constructor
    · intro h
      by_contra hraw
      simp [safe_get_prices, hraw] at h
    · intro h
      simp [safe_get_prices, h]
  · exact extractCols_fst raw (neededSyms tickers)

/-- C6: the portfolio daily return is the weighted sum over asset columns of
that column's daily simple return (`pct_change` entry `i` equals
`p[i+1]/p[i] - 1`); each column's weight is resolved by symbol lookup, so
the combined value is invariant under any permutation of the columns; and
for two assets with same-date returns `0.02` and `-0.01` and weights
`0.6` / `0.4`, the combined return is `0.008 = 1/125`. -/
theorem C6_weighted_combination :
    (∀ (ps : List ℚ) (i : ℕ), i + 1 < ps.length →
        (pctChange ps).getD i 0 = ps.getD (i + 1) 0 / ps.getD i 0 - 1)
    ∧ (∀ (tickers : List String) (weights : List ℚ) (cols1 cols2 : Frame) (i : ℕ),
        cols1.Perm cols2 →
          portfolioAt tickers weights cols1 i = portfolioAt tickers weights cols2 i)
    ∧ portfolioSeries ["AAA", "BBB"] [3 / 5, 2 / 5]
        [("AAA", [100, 102]), ("BBB", [100, 99])] 1 = [1 / 125] := by
  refine ⟨pctChange_getD, ?_, ?_⟩
  · intro tickers weights cols1 cols2 i h
    exact List.Perm.sum_eq (h.map _)
  · have hr : List.range 1 = [0] := rfl
    rw [portfolioSeries, hr, List.map_singleton, portfolioAt]
    simp only [List.map_cons, List.map_nil, List.sum_cons, List.sum_nil]
    simp [weightOf, pctChange, List.indexOf_cons]
    norm_num

/-- C6 (witness): prices `[100, 102]` give the return `0.02` between rows 0
and 1, and swapping the two columns leaves the combined return unchanged. -/
theorem C6_weighted_combination_witness :
    (0 + 1 < ([100, 102] : List ℚ).length
      ∧ (pctChange [100, 102]).getD 0 0 = ([(100 : ℚ), 102]).getD 1 0 / ([(100 : ℚ), 102]).getD 0 0 - 1)
    ∧ (([("AAA", [100, 102]), ("BBB", [(100 : ℚ), 99])] : Frame).Perm
          [("BBB", [(100 : ℚ), 99]), ("AAA", [100, 102])]
      ∧ portfolioAt ["AAA", "BBB"] [3 / 5, 2 / 5]
          [("AAA", [100, 102]), ("BBB", [100, 99])] 0 =
        portfolioAt ["AAA", "BBB"] [3 / 5, 2 / 5]
          [("BBB", [100, 99]), ("AAA", [100, 102])] 0) :=
  ⟨⟨by norm_num, C6_weighted_combination.1 [100, 102] 0 (by norm_num)⟩,
   ⟨List.Perm.swap _ _ _,
    C6_weighted_combination.2.1 ["AAA", "BBB"] [3 / 5, 2 / 5] _ _ 0 (List.Perm.swap _ _ _)⟩⟩

/-- C9: when the conversion loop completes, a home-market asset's column in
the converted table is bit-for-bit the column of the input table (including
both being absent); a `.L`-flagged asset's column is the element-wise product
with the `GBPTWD=X` column; any other foreign asset's column is the
element-wise product with the `TWD=X` column. -/
theorem C9_currency_conversion (priceTable : Frame) (tickers : List String) (out : Frame)
    (hok : convertCols priceTable tickers = .ok out) (t : String) (ht : t ∈ tickers) :
    (isHomeSym t = true → out.lookup t = priceTable.lookup t)
    ∧ (∀ col fx, isHomeSym t = false → strContains t ".L" = true →
        priceTable.lookup t = some col → priceTable.lookup "GBPTWD=X" = some fx →
          out.lookup t = some (mulCols col fx))
    ∧ (∀ col fx, isHomeSym t = false → strContains t ".L" = false →
        priceTable.lookup t = some col → priceTable.lookup "TWD=X" = some fx →
          out.lookup t = some (mulCols col fx)) := by
  have hl := convertCols_lookup priceTable tickers out hok t
  rw [if_pos ht] at hl
  refine ⟨?_, ?_, ?_⟩
  · intro hhome
    rw [hl]
    cases hpt : priceTable.lookup t with
    | none => simp
    | some col => simp [convOne, hhome]
  · intro col fx hh hL hit hfx
    rw [hl, hit]
    simp [convOne, hh, hL, hfx]
  · intro col fx hh hL hit hfx
    rw [hl, hit]
    simp [convOne, hh, hL, hfx]

/-- C9 (witness): on a concrete table holding a Taiwan asset, a London asset,
a U.S. asset and both FX columns, the loop copies the home column verbatim
and multiplies the London column by the GBP FX column. -/
theorem C9_currency_conversion_witness :
    convertCols
        [("0050.TW", [100]), ("HSBA.L", [7]), ("AAPL", [150]),
          ("GBPTWD=X", [40]), ("TWD=X", [30])]
        ["0050.TW", "HSBA.L", "AAPL"] =
      .ok [("0050.TW", [100]), ("HSBA.L", mulCols [7] [40]), ("AAPL", mulCols [150] [30])]
    ∧ (List.lookup "0050.TW"
        [("0050.TW", [(100 : ℚ)]), ("HSBA.L", mulCols [7] [40]), ("AAPL", mulCols [150] [30])] =
       List.lookup "0050.TW"
        [("0050.TW", [(100 : ℚ)]), ("HSBA.L", [7]), ("AAPL", [150]),
          ("GBPTWD=X", [40]), ("TWD=X", [30])])
    ∧ List.lookup "HSBA.L"
        [("0050.TW", [(100 : ℚ)]), ("HSBA.L", mulCols [7] [40]), ("AAPL", mulCols [150] [30])] =
        some (mulCols [7] [40]) := by
  have hok : convertCols
      [("0050.TW", [100]), ("HSBA.L", [7]), ("AAPL", [150]),
        ("GBPTWD=X", [40]), ("TWD=X", [30])]
      ["0050.TW", "HSBA.L", "AAPL"] =
      .ok [("0050.TW", [100]), ("HSBA.L", mulCols [7] [40]), ("AAPL", mulCols [150] [30])] := by
    rfl
  refine ⟨hok, ?_, ?_⟩
  · exact (C9_currency_conversion _ _ _ hok "0050.TW" (by simp)).1 rfl
  · exact (C9_currency_conversion _ _ _ hok "HSBA.L" (by simp)).2.1 [7] [40] rfl rfl rfl rfl

/-- C8: in the aligned table, (a) a cell with no direct observation at its
row but with an earlier observation in its column is forward-filled with the
most recent prior observed value of that column; (b) a row survives
`dropna` iff every column has an observation at or before it (so rows still
missing a cell after forward-fill are dropped entirely); (c) consequently
every surviving row — in particular the first — is at or after every
column's first observation, and under ascending dates its date is no
earlier than the latest per-symbol first-available date. -/
theorem C8_alignment (cols : RawFrame) (nRows : ℕ) (dates : List ℕ)
    (hlen : ∀ c ∈ cols, c.2.length = nRows)
    (hdl : dates.length = nRows) (hsort : dates.Sorted (· ≤ ·)) :
    (∀ c ∈ cols, ∀ i j : ℕ, i < nRows → j < i →
        (c.2.getD j none).isSome →
        (∀ k, j < k → k < i → c.2.getD k none = none) →
        c.2.getD i none = none →
        (ffillCol c.2).getD i none = c.2.getD j none)
    ∧ (∀ i, i < nRows →
        (i ∈ keptRows cols nRows ↔
          ∀ c ∈ cols, ∃ j, j ≤ i ∧ (c.2.getD j none).isSome))
    ∧ (∀ i ∈ keptRows cols nRows, ∀ c ∈ cols,
        firstObsIdx c.2 ≤ i ∧ dates.getD (firstObsIdx c.2) 0 ≤ dates.getD i 0) := by
  have hmono : ∀ a b : ℕ, a ≤ b → b < dates.length → dates.getD a 0 ≤ dates.getD b 0 := by
    intro a b hab hb
    have ha : a < dates.length := by omega
    rw [List.getD_eq_getElem _ _ ha, List.getD_eq_getElem _ _ hb]
    rcases Nat.lt_or_ge a b with h | h
    · exact List.pairwise_iff_getElem.mp hsort a b ha hb h
    · have hab2 : a = b := by omega
      subst hab2
      rfl
  refine ⟨?_, keptRows_mem cols nRows hlen, ?_⟩
  · intro c hc i j hi hj hsome hmid hcell
    exact ffill_gap c.2 i j (by rw [hlen c hc]; omega) hj hsome hmid hcell
  · intro i hik c hc
    have hi : i < nRows := by
      have := (List.mem_filter.mp hik).1
      simpa [keptRows] using (List.mem_filter.mp hik).1
    obtain ⟨j, hj, hjs⟩ := (keptRows_mem cols nRows hlen i hi).mp hik c hc
    have hfo : firstObsIdx c.2 ≤ j :=
      firstObsIdx_le c.2 j (by rw [hlen c hc]; omega) hjs
    exact ⟨by omega, hmono _ _ (by omega) (by omega)⟩

/-- C8 (witness): two staggered columns over three dated rows — column `B`
starts only at row 1, so row 0 is dropped; its unobserved row-2 cell is
filled with the row-1 value; and every kept row lies at or after both
columns' first observations. -/
theorem C8_alignment_witness :
    (∀ c ∈ ([("A", [some 1, some 2, some 3]),
             ("B", [none, some 5, none])] : RawFrame), c.2.length = 3)
    ∧ ([10, 11, 12] : List ℕ).Sorted (· ≤ ·)
    ∧ (ffillCol [none, some 5, none]).getD 2 none =
        ([none, some 5, none] : List (Option ℚ)).getD 1 none
    ∧ (∀ i ∈ keptRows [("A", [some 1, some 2, some 3]), ("B", [none, some 5, none])] 3,
        ∀ c ∈ ([("A", [some 1, some 2, some 3]),
                ("B", [none, some 5, none])] : RawFrame),
          firstObsIdx c.2 ≤ i ∧
            ([10, 11, 12] : List ℕ).getD (firstObsIdx c.2) 0 ≤ ([10, 11, 12] : List ℕ).getD i 0) := by
  have hlen : ∀ c ∈ ([("A", [some 1, some 2, some 3]),
      ("B", [none, some 5, none])] : RawFrame), c.2.length = 3 := by
    intro c hc
    rcases List.mem_cons.mp hc with h | h
    · rw [h]
      rfl
    · rcases List.mem_cons.mp h with h2 | h2
      · rw [h2]
        rfl
      · simp at h2
  have hsort : ([10, 11, 12] : List ℕ).Sorted (· ≤ ·) := by decide
  have hall := C8_alignment
    [("A", [some 1, some 2, some 3]), ("B", [none, some 5, none])] 3 [10, 11, 12]
    hlen rfl hsort
  refine ⟨hlen, hsort, ?_, hall.2.2⟩
  exact hall.1 ("B", [none, some 5, none]) (by simp) 2 1 (by omega) (by omega)
    (by simp) (by intro k h1 h2; omega) (by simp)

end StockApp
